import Mathlib

/-!
Verification of the TB-Metrics-Visualizer pipeline (src/main.py).

The development shallowly embeds the three core functions of `src/main.py`:

* `smooth_values`  (src/main.py lines 125–152): EMA / moving-average smoothing,
  modelled over exact rationals in place of IEEE floats;
* `load_tb_data`   (src/main.py lines 44–122): the series merger, with the
  opaque `EventAccumulator` collaborator modelled as each file carrying an
  `Except`-valued read result (either an error or the list of scalar tags with
  their `(step, value, wall_time)` observations);
* the per-record drawing and colour assignment of `create_visualization`
  (src/main.py lines 155–254), modelled as the list of curves emitted per
  series record and an explicit colour-assignment state threaded through the
  draw sequence.

Paths are modelled as lists of components of an absolute, resolved path, so
`Path.relative_to(base)` succeeds exactly when `base`'s components are an
initial segment of the path's components.
-/

namespace TBViz

/-! ## Smoothing engine (`smooth_values`, src/main.py lines 125–152) -/

/-- Full discrete convolution, `np.convolve(v, k)` (mode `"full"`):
a list of length `v.length + k.length - 1` whose `i`-th entry is
`∑ j, v[j] * k[i-j]`, out-of-range indices contributing `0`. -/
def npConvolveFull (v k : List ℚ) : List ℚ :=
  (List.range (v.length + k.length - 1)).map fun i =>
    ((List.range (i + 1)).map fun j => v.getD j 0 * k.getD (i - j) 0).sum

/-- Discrete convolution in numpy's `mode="same"`: the centred slice of the
full convolution, of length `max v.length k.length`, starting at offset
`(min v.length k.length - 1) / 2`. -/
def npConvolveSame (v k : List ℚ) : List ℚ :=
  ((npConvolveFull v k).drop ((min v.length k.length - 1) / 2)).take
    (max v.length k.length)

/-- EMA recurrence tail: given the previous smoothed value `prev`, produce
`alpha * v + (1 - alpha) * prev` for each successive element. Embeds the
loop at src/main.py lines 150–151. -/
def emaFrom (alpha : ℚ) (prev : ℚ) : List ℚ → List ℚ
  | [] => []
  | v :: vs => (alpha * v + (1 - alpha) * prev) :: emaFrom alpha (alpha * v + (1 - alpha) * prev) vs

/-- Exponential moving average: first element kept, then the recurrence
(src/main.py lines 149–151). An empty input yields an empty output
(src/main.py lines 147–148). -/
def emaSmooth (alpha : ℚ) : List ℚ → List ℚ
  | [] => []
  | v :: vs => v :: emaFrom alpha v vs

/-- Embedding of `smooth_values(values, method, window)` (src/main.py
lines 125–152). `window` is `Option ℤ` because the Python parameter may be
`None`; values are exact rationals in place of floats. -/
def smooth_values (values : List ℚ) (method : String) (window : Option ℤ) : List ℚ :=
  match window with
  | none => values
  | some w =>
    if w ≤ 1 then values
    else if method = "ma" then
      npConvolveSame values (List.replicate w.toNat (1 / (w : ℚ)))
    else
      emaSmooth (2 / ((w : ℚ) + 1)) values

/-! ## Data model for the series merger (`load_tb_data`, src/main.py lines 44–122) -/

/-- One scalar observation: the `(step, value, wall_time)` triple yielded by
the event-accumulator collaborator (src/main.py lines 97–99). -/
structure Obs where
  step : ℤ
  value : ℚ
  wall : ℚ
deriving DecidableEq, Repr

/-- A Series Record as appended at src/main.py lines 110–116: three parallel
sequences plus the run identifier and originating file path. -/
structure Record where
  steps : List ℤ
  values : List ℚ
  walltimes : List ℚ
  run_name : String
  file_path : String
deriving DecidableEq, Repr

/-- An event-log file as seen by `load_tb_data`: its path string, the
components of its parent directory (`Path(tb_file).resolve().parent`), and
the outcome of opening/reading it through `EventAccumulator`: either an
error, or the list of scalar tags each with its ordered observations
(src/main.py lines 86–94 and 118–120). -/
structure TBFile where
  path : String
  logDir : List String
  read : Except String (List (String × List Obs))

/-- The Metric Collection: metric name to ordered list of Series Records,
with `defaultdict(list)` insertion-order semantics (src/main.py line 56). -/
abbrev Coll : Type := List (String × List Record)

/-- Rendering of a relative `Path` by `str(...)`: `Path('.')` for an empty
relative path, otherwise components joined by `/`. -/
def strOfRel (p : List String) : String :=
  if p.isEmpty then "." else String.intercalate "/" p

/-- Rendering of an absolute `Path` by `str(...)`: a leading `/` then the
components joined by `/`. -/
def strOfAbs (p : List String) : String :=
  "/" ++ String.intercalate "/" p

/-- `log_dir.relative_to(base)` on resolved absolute paths: succeeds exactly
when `base`'s components are an initial segment of `log_dir`'s, returning
the remaining components (src/main.py line 73). -/
def relParts (logDir base : List String) : Option (List String) :=
  if logDir.take base.length = base then some (logDir.drop base.length) else none

/-- The run-identifier computation of src/main.py lines 69–82: the first
base directory (in supplied order) that `log_dir` is relative to wins;
if none matches, the absolute parent path is used. -/
def computeRunName (roots : List (List String)) (logDir : List String) : String :=
  match roots.findSome? (fun base => relParts logDir base) with
  | some rel => strOfRel rel
  | none => strOfAbs logDir

/-- Construction of one Series Record from an observation list
(src/main.py lines 97–99 and 110–116). -/
def mkRecord (events : List Obs) (runName filePath : String) : Record :=
  ⟨events.map (·.step), events.map (·.value), events.map (·.wall), runName, filePath⟩

/-- Per-tag processing of src/main.py lines 92–116: an empty event list is
skipped; with a max-step bound the events are filtered by `step ≤ M` and the
tag is skipped when nothing survives; otherwise a Series Record is built. -/
def processTag (runName filePath : String) (maxStep : Option ℤ) (tag : String)
    (events : List Obs) : Option (String × Record) :=
  if events.isEmpty then none
  else
    match maxStep with
    | none => some (tag, mkRecord events runName filePath)
    | some M =>
      let filtered := events.filter (fun e => e.step ≤ M)
      if filtered.isEmpty then none
      else some (tag, mkRecord filtered runName filePath)

/-- The records one successfully read file contributes, tag by tag
(the loop at src/main.py lines 92–116). -/
def fileRecords (roots : List (List String)) (maxStep : Option ℤ) (f : TBFile)
    (tags : List (String × List Obs)) : List (String × Record) :=
  tags.filterMap fun te => processTag (computeRunName roots f.logDir) f.path maxStep te.1 te.2

/-- Appending one record under its tag, with `defaultdict(list)` semantics:
append to the existing entry, or create a new entry at the end. -/
def insertRecord : Coll → String → Record → Coll
  | [], tag, r => [(tag, [r])]
  | (t, rs) :: rest, tag, r =>
    if t = tag then (t, rs ++ [r]) :: rest else (t, rs) :: insertRecord rest tag r

/-- Processing of one file inside the loop of `load_tb_data`
(src/main.py lines 61–120), threading the collection and the printed log:
the `Loading:` line is printed first, then either the file's records are
merged in, or the failure is logged and the file contributes nothing. -/
def loadStep (roots : List (List String)) (maxStep : Option ℤ)
    (acc : Coll × List String) (f : TBFile) : Coll × List String :=
  let log1 := acc.2 ++ ["Loading: " ++ f.path]
  match f.read with
  | .error e => (acc.1, log1 ++ ["Failed to load file " ++ f.path ++ ": " ++ e])
  | .ok tags =>
    ((fileRecords roots maxStep f tags).foldl (fun c tr => insertRecord c tr.1 tr.2) acc.1,
     log1)

/-- Embedding of `load_tb_data(tb_files, base_directories, max_step)`
(src/main.py lines 44–122): the resulting Metric Collection together with
the lines printed along the way. -/
def load_tb_data (tb_files : List TBFile) (base_directories : List (List String))
    (max_step : Option ℤ) : Coll × List String :=
  tb_files.foldl (loadStep base_directories max_step) ([], [])

/-- All Series Records stored in a Metric Collection, across every tag. -/
def allRecords : Coll → List Record
  | [] => []
  | (_, rs) :: rest => rs ++ allRecords rest

/-! ## Colour assignment (`create_visualization`, src/main.py lines 192–228) -/

/-- The hard-coded ten-colour fallback palette of src/main.py line 198. -/
def fallbackColors : List String :=
  ["#1f77b4", "#ff7f0e", "#2ca02c", "#d62728", "#9467bd",
   "#8c564b", "#e377c2", "#7f7f7f", "#bcbd22", "#17becf"]

/-- The colour produced by the `i`-th call of `next` on
`itertools.cycle(palette)`: the palette is traversed cyclically. -/
def nextColor (palette : List String) (i : ℕ) : String :=
  palette.getD (i % palette.length) ""

/-- The mutable colour-assignment state of a rendering pass: the
`run_color_map` association (insertion order) and how many colours the
cycle iterator has already produced. -/
structure ColorState where
  assigned : List (String × String)
  idx : ℕ
deriving DecidableEq, Repr

/-- `run_color_map.get(run_name)`: first binding wins (keys are unique by
construction). -/
def lookupRun : List (String × String) → String → Option String
  | [], _ => none
  | p :: rest, r => if p.1 = r then some p.2 else lookupRun rest r

/-- Colour resolution for one drawn record (src/main.py lines 225–228):
a remembered identifier returns its remembered colour unchanged; a new
identifier takes the next colour of the cyclic palette and is remembered. -/
def resolveColor (palette : List String) (st : ColorState) (run : String) :
    String × ColorState :=
  match lookupRun st.assigned run with
  | some c => (c, st)
  | none =>
    (nextColor palette st.idx,
     ⟨st.assigned ++ [(run, nextColor palette st.idx)], st.idx + 1⟩)

/-- The colours resolved over a whole draw sequence (the run identifiers in
the order the subplot loops of `create_visualization` encounter them). -/
def resolveAll (palette : List String) (st : ColorState) : List String → List String
  | [] => []
  | r :: rs => (resolveColor palette st r).1 :: resolveAll palette (resolveColor palette st r).2 rs

/-- The colour state after a draw sequence. -/
def stateAfter (palette : List String) (st : ColorState) : List String → ColorState
  | [] => st
  | r :: rs => stateAfter palette (resolveColor palette st r).2 rs

/-- One step of collecting distinct run identifiers in first-occurrence
order. -/
def addRun (acc : List String) (r : String) : List String :=
  if r ∈ acc then acc else acc ++ [r]

/-- The distinct run identifiers of a draw sequence, in first-occurrence
order. -/
def seenAfter (runs : List String) : List String :=
  runs.foldl addRun []

/-- The association pairing the `j`-th listed identifier with the cyclic
palette colour of index `i + j`. -/
def assignWithIdx (palette : List String) : ℕ → List String → List (String × String)
  | _, [] => []
  | i, r :: rs => (r, nextColor palette i) :: assignWithIdx palette (i + 1) rs

/-- Position of the first occurrence of a string in a list (length of the
list when absent). -/
def posOf : List String → String → ℕ
  | [], _ => 0
  | x :: xs, r => if x = r then 0 else posOf xs r + 1

/-! ## Per-record drawing (`create_visualization`, src/main.py lines 209–254) -/

/-- One `ax.plot` call: x data, y data, label, colour, alpha, line width. -/
structure Curve where
  x : List ℚ
  y : List ℚ
  label : String
  color : String
  alpha : ℚ
  linewidth : ℚ
deriving DecidableEq, Repr

/-- A default curve used only as the `getD` fallback. -/
def defCurve : Curve := ⟨[], [], "", "", 0, 0⟩

/-- The x-axis data choice of src/main.py lines 216–223: elapsed hours since
the record's first timestamp in wall-clock mode (empty stays empty),
otherwise the raw step sequence. -/
def chooseX (x_axis : String) (r : Record) : List ℚ :=
  if x_axis = "walltime" then
    match r.walltimes with
    | [] => []
    | w0 :: _ => r.walltimes.map (fun w => (w - w0) / 3600)
  else
    r.steps.map (fun s => (s : ℚ))

/-- The curves drawn for one Series Record inside a subplot
(src/main.py lines 230–254): with smoothing and show-both, the raw curve
(label `"_nolegend_"`, alpha 0.35, width 1.0) then the smoothed curve
(labelled with the run identifier, the raw line's colour, alpha 0.9,
width 1.6); with smoothing alone, only the smoothed curve; otherwise only
the raw curve (alpha 0.8, width 1.5). -/
def drawRecord (smooth_method : Option String) (smooth_window : ℤ)
    (show_raw_and_smooth : Bool) (x_axis : String) (runColor : String)
    (r : Record) : List Curve :=
  match smooth_method, show_raw_and_smooth with
  | some m, true =>
    [⟨chooseX x_axis r, r.values, "_nolegend_", runColor, 35/100, 1⟩,
     ⟨chooseX x_axis r, smooth_values r.values m (some smooth_window), r.run_name, runColor,
      9/10, 16/10⟩]
  | some m, false =>
    [⟨chooseX x_axis r, smooth_values r.values m (some smooth_window), r.run_name, runColor,
      8/10, 15/10⟩]
  | none, _ =>
    [⟨chooseX x_axis r, r.values, r.run_name, runColor, 8/10, 15/10⟩]

/-- The legend labels of a list of curves: matplotlib's `"_nolegend_"`
sentinel suppresses a curve's legend entry. -/
def legendLabels (cs : List Curve) : List String :=
  (cs.filter fun c => c.label ≠ "_nolegend_").map (·.label)

/-! ## Smoothing lemmas -/

lemma emaFrom_length (a p : ℚ) (vs : List ℚ) : (emaFrom a p vs).length = vs.length := by
  induction vs generalizing p with
  | nil => rfl
  | cons v vs ih => simp [emaFrom, ih]

lemma emaSmooth_length (a : ℚ) (v : List ℚ) : (emaSmooth a v).length = v.length := by
  cases v with
  | nil => rfl
  | cons v vs => simp [emaSmooth, emaFrom_length]

lemma npConvolveFull_length (v k : List ℚ) :
    (npConvolveFull v k).length = v.length + k.length - 1 := by
  simp [npConvolveFull]

lemma npConvolveSame_length (v k : List ℚ) (hv : v ≠ []) (hk : k ≠ []) :
    (npConvolveSame v k).length = max v.length k.length := by
  have hv' : 0 < v.length := List.length_pos.mpr hv
  have hk' : 0 < k.length := List.length_pos.mpr hk
  simp only [npConvolveSame, List.length_take, List.length_drop, npConvolveFull_length]
  omega

lemma emaFrom_getD_zero (a p : ℚ) (vs : List ℚ) (h : vs ≠ []) :
    (emaFrom a p vs).getD 0 0 = a * vs.getD 0 0 + (1 - a) * p := by
  cases vs with
  | nil => exact absurd rfl h
  | cons v vs => simp [emaFrom]

lemma emaFrom_getD_succ (a : ℚ) (vs : List ℚ) :
    ∀ (p : ℚ) (i : ℕ), i + 1 < vs.length →
      (emaFrom a p vs).getD (i + 1) 0 =
        a * vs.getD (i + 1) 0 + (1 - a) * (emaFrom a p vs).getD i 0 := by
  induction vs with
  | nil => intro p i h; simp at h
  | cons v vs ih =>
    intro p i h
    cases i with
    | zero =>
      have hvs : vs ≠ [] := by
        intro hnil
        rw [hnil] at h
        simp at h
      simp only [emaFrom, List.getD_cons_succ, List.getD_cons_zero]
      exact emaFrom_getD_zero a _ vs hvs
    | succ j =>
      have hj : j + 1 < vs.length := by simpa using h
      simp only [emaFrom, List.getD_cons_succ]
      exact ih _ j hj

lemma emaSmooth_spec (a : ℚ) (v : List ℚ) :
    (emaSmooth a v).length = v.length ∧
    (emaSmooth a v).getD 0 0 = v.getD 0 0 ∧
    ∀ i, 0 < i → i < v.length →
      (emaSmooth a v).getD i 0 =
        a * v.getD i 0 + (1 - a) * (emaSmooth a v).getD (i - 1) 0 := by
  refine ⟨emaSmooth_length a v, ?_, ?_⟩
  · cases v with
    | nil => rfl
    | cons v vs => simp [emaSmooth]
  · intro i hi hlen
    cases v with
    | nil => simp at hlen
    | cons v vs =>
      cases i with
      | zero => exact absurd hi (by simp)
      | succ j =>
        cases j with
        | zero =>
          have hvs : vs ≠ [] := by
            intro hnil
            rw [hnil] at hlen
            simp at hlen
          simp only [emaSmooth, List.getD_cons_succ, List.getD_cons_zero, Nat.add_sub_cancel]
          exact emaFrom_getD_zero a v vs hvs
        | succ m =>
          have hm : m + 1 < vs.length := by simpa using hlen
          simp only [emaSmooth, List.getD_cons_succ, Nat.add_sub_cancel]
          exact emaFrom_getD_succ a vs v m hm

lemma smooth_values_ema_eq (v : List ℚ) (method : String) (w : ℤ)
    (hm : method ≠ "ma") (hw : 1 < w) :
    smooth_values v method (some w) = emaSmooth (2 / ((w : ℚ) + 1)) v := by
  have h1 : ¬ w ≤ 1 := by omega
  simp [smooth_values, hm, h1]

/-! ## Claim theorems: smoothing -/

/-- Claim C1, counterexample: the claim says `smooth_values(v, method, w)`
preserves length for every non-empty `v`, both methods, and every window
`w > 1`; but for `v = [1]`, `method = "ma"`, `w = 2` the output of
numpy-`"same"` convolution has length `max(len v, w) = 2 ≠ 1`. -/
theorem smooth_ma_length_counterexample :
    (smooth_values [1] "ma" (some 2)).length ≠ 1 := by decide

/-- Claim C1, amended: for every non-empty `v`, method in `{"ema", "ma"}`
and window `w > 1`, `smooth_values(v, method, w)` has length `len v`
provided, for `"ma"`, that `w ≤ len v` (numpy `mode="same"` returns
`max(len v, w)` elements); for `"ema"` the length is always preserved. -/
theorem smooth_values_length_amended (v : List ℚ) (method : String) (w : ℤ)
    (hv : v ≠ []) (hm : method = "ema" ∨ method = "ma") (hw : 1 < w)
    (hma : method = "ma" → w.toNat ≤ v.length) :
    (smooth_values v method (some w)).length = v.length := by
  rcases hm with hm | hm
  · rw [hm, smooth_values_ema_eq v "ema" w (by simp) hw]
    exact emaSmooth_length _ v
  · subst hm
    have hk : (List.replicate w.toNat ((1 : ℚ) / (w : ℚ))) ≠ [] := by
      have : w.toNat ≠ 0 := by omega
      simp [this]
    have h1 : ¬ w ≤ 1 := by omega
    have h2 : smooth_values v "ma" (some w)
        = npConvolveSame v (List.replicate w.toNat (1 / (w : ℚ))) := by
      simp [smooth_values, h1]
    rw [h2, npConvolveSame_length v _ hv hk]
    have := hma rfl
    simp only [List.length_replicate]
    omega

/-- Witness for `smooth_values_length_amended` at `v = [1,2,3]`,
`method = "ma"`, `w = 2`. -/
theorem smooth_values_length_amended_witness :
    (smooth_values [1, 2, 3] "ma" (some 2)).length = 3 :=
  smooth_values_length_amended [1, 2, 3] "ma" 2 (by decide) (Or.inr rfl) (by decide)
    (fun _ => by decide)

/-- Claim C8: for every sequence and every method, `smooth_values` returns
the input unchanged when the window is `None` or at most 1 (identity law,
src/main.py lines 137–138). -/
theorem smooth_values_identity (v : List ℚ) (method : String) (window : Option ℤ)
    (h : window = none ∨ ∃ w, window = some w ∧ w ≤ 1) :
    smooth_values v method window = v := by
  rcases h with h | ⟨w, rfl, hw⟩
  · rw [h]; rfl
  · simp [smooth_values, hw]

/-- Witness for `smooth_values_identity` at `v = [1,2]`, `method = "ma"`,
`window = 1`. -/
theorem smooth_values_identity_witness :
    smooth_values [1, 2] "ma" (some 1) = [1, 2] :=
  smooth_values_identity [1, 2] "ma" (some 1) (Or.inr ⟨1, rfl, le_refl 1⟩)

/-- Claim C4: for every non-empty `v` and window `w > 1`,
`smooth_values(v, "ema", w)` satisfies `out[0] = v[0]` and
`out[i] = alpha * v[i] + (1 - alpha) * out[i-1]` with
`alpha = 2 / (w + 1)` (src/main.py lines 144–152). -/
theorem smooth_ema_recurrence (v : List ℚ) (w : ℤ) (hv : v ≠ []) (hw : 1 < w) :
    (smooth_values v "ema" (some w)).getD 0 0 = v.getD 0 0 ∧
    ∀ i, 0 < i → i < v.length →
      (smooth_values v "ema" (some w)).getD i 0 =
        (2 / ((w : ℚ) + 1)) * v.getD i 0 +
          (1 - 2 / ((w : ℚ) + 1)) * (smooth_values v "ema" (some w)).getD (i - 1) 0 := by
  rw [smooth_values_ema_eq v "ema" w (by simp) hw]
  exact (emaSmooth_spec _ v).2

/-- Witness for `smooth_ema_recurrence` at `v = [1,2]`, `w = 3`. -/
theorem smooth_ema_recurrence_witness :
    (smooth_values [(1 : ℚ), 2] "ema" (some 3)).getD 0 0 = 1 ∧
    (smooth_values [(1 : ℚ), 2] "ema" (some 3)).getD 1 0 =
      (2 / ((3 : ℚ) + 1)) * 2 +
        (1 - 2 / ((3 : ℚ) + 1)) * (smooth_values [(1 : ℚ), 2] "ema" (some 3)).getD 0 0 := by
  have h := smooth_ema_recurrence [(1 : ℚ), 2] 3 (by decide) (by decide)
  refine ⟨h.1, ?_⟩
  have h2 := h.2 1 (by decide) (by decide)
  rw [show ([(1 : ℚ), 2].getD 1 0) = 2 from rfl] at h2
  exact h2

/-- Claim C10: for every `v` and window `w > 1`, `smooth_values` applies the
EMA recurrence for every method string other than `"ma"` — unrecognized
methods are silently treated as `"ema"` (the `else` branch of
src/main.py lines 140–152). -/
theorem smooth_default_ema (v : List ℚ) (method : String) (w : ℤ)
    (hm : method ≠ "ma") (hw : 1 < w) :
    (smooth_values v method (some w)).length = v.length ∧
    (smooth_values v method (some w)).getD 0 0 = v.getD 0 0 ∧
    ∀ i, 0 < i → i < v.length →
      (smooth_values v method (some w)).getD i 0 =
        (2 / ((w : ℚ) + 1)) * v.getD i 0 +
          (1 - 2 / ((w : ℚ) + 1)) * (smooth_values v method (some w)).getD (i - 1) 0 := by
  rw [smooth_values_ema_eq v method w hm hw]
  exact emaSmooth_spec _ v

/-- Witness for `smooth_default_ema` at the unrecognized method `"bogus"`,
`v = [1,2]`, `w = 3`. -/
theorem smooth_default_ema_witness :
    (smooth_values [(1 : ℚ), 2] "bogus" (some 3)).length = 2 ∧
    (smooth_values [(1 : ℚ), 2] "bogus" (some 3)).getD 1 0 =
      (2 / ((3 : ℚ) + 1)) * 2 +
        (1 - 2 / ((3 : ℚ) + 1)) * (smooth_values [(1 : ℚ), 2] "bogus" (some 3)).getD 0 0 := by
  have h := smooth_default_ema [(1 : ℚ), 2] "bogus" 3 (by decide) (by decide)
  refine ⟨h.1, ?_⟩
  have h2 := h.2.2 1 (by decide) (by decide)
  rw [show ([(1 : ℚ), 2].getD 1 0) = 2 from rfl] at h2
  exact h2

/-! ## Series-merger lemmas -/

lemma processTag_eq_some (rn fp : String) (M : Option ℤ) (t : String) (evs : List Obs)
    (t' : String) (r : Record) (h : processTag rn fp M t evs = some (t', r)) :
    t' = t ∧ ∃ evs', evs' ≠ [] ∧ r = mkRecord evs' rn fp ∧
      (∀ m, M = some m → ∀ e ∈ evs', e.step ≤ m) := by
  unfold processTag at h
  by_cases he : evs.isEmpty
  · simp [he] at h
  · rw [if_neg he] at h
    cases M with
    | none =>
      injection h with h1
      injection h1 with ht hr
      exact ⟨ht.symm, evs, List.isEmpty_iff.not.mp he, hr.symm, by simp⟩
    | some m =>
      simp only at h
      by_cases hf : (evs.filter (fun e => e.step ≤ m)).isEmpty
      · rw [if_pos hf] at h
        exact absurd h (by simp)
      · rw [if_neg hf] at h
        injection h with h1
        injection h1 with ht hr
        refine ⟨ht.symm, evs.filter (fun e => e.step ≤ m), List.isEmpty_iff.not.mp hf,
          hr.symm, ?_⟩
        intro m' hm' e he'
        injection hm' with hm'
        subst hm'
        simpa using (List.mem_filter.mp he').2

lemma mem_allRecords_insertRecord (c : Coll) (t : String) (r0 r : Record)
    (h : r ∈ allRecords (insertRecord c t r0)) : r ∈ allRecords c ∨ r = r0 := by
  induction c with
  | nil => simpa [insertRecord, allRecords] using h
  | cons p rest ih =>
    obtain ⟨t', rs⟩ := p
    by_cases ht : t' = t
    · subst ht
      simp only [insertRecord, if_pos rfl, allRecords, List.mem_append] at h ⊢
      rcases h with (h | h) | h
      · exact Or.inl (Or.inl h)
      · exact Or.inr (by simpa using h)
      · exact Or.inl (Or.inr h)
    · simp only [insertRecord, if_neg ht, allRecords, List.mem_append] at h ⊢
      rcases h with h | h
      · exact Or.inl (Or.inl h)
      · rcases ih h with h' | h'
        · exact Or.inl (Or.inr h')
        · exact Or.inr h'

lemma mem_allRecords_foldl_insert (l : List (String × Record)) :
    ∀ (c0 : Coll) (r : Record),
      r ∈ allRecords (l.foldl (fun c tr => insertRecord c tr.1 tr.2) c0) →
      r ∈ allRecords c0 ∨ ∃ t, (t, r) ∈ l := by
  induction l with
  | nil => intro c0 r h; exact Or.inl h
  | cons tr rest ih =>
    intro c0 r h
    simp only [List.foldl_cons] at h
    rcases ih _ r h with h' | ⟨t, ht⟩
    · rcases mem_allRecords_insertRecord c0 tr.1 tr.2 r h' with h'' | rfl
      · exact Or.inl h''
      · exact Or.inr ⟨tr.1, by simp⟩
    · exact Or.inr ⟨t, List.mem_cons_of_mem _ ht⟩

lemma mem_allRecords_load_aux (roots : List (List String)) (M : Option ℤ) :
    ∀ (files : List TBFile) (acc : Coll × List String) (r : Record),
      r ∈ allRecords (files.foldl (loadStep roots M) acc).1 →
      r ∈ allRecords acc.1 ∨
        ∃ f ∈ files, ∃ tags, f.read = .ok tags ∧ ∃ t, (t, r) ∈ fileRecords roots M f tags := by
  intro files
  induction files with
  | nil => intro acc r h; exact Or.inl h
  | cons f fs ih =>
    intro acc r h
    simp only [List.foldl_cons] at h
    rcases ih _ r h with h' | ⟨f', hf', tags, hread, t, htr⟩
    · cases hread : f.read with
      | error e =>
        simp only [loadStep, hread] at h'
        exact Or.inl h'
      | ok tags =>
        simp only [loadStep, hread] at h'
        rcases mem_allRecords_foldl_insert _ _ r h' with h'' | ⟨t, ht⟩
        · exact Or.inl h''
        · exact Or.inr ⟨f, List.mem_cons_self f fs, tags, hread, t, ht⟩
    · exact Or.inr ⟨f', List.mem_cons_of_mem f hf', tags, hread, t, htr⟩

lemma mem_fileRecords (roots : List (List String)) (M : Option ℤ) (f : TBFile)
    (tags : List (String × List Obs)) (t : String) (r : Record)
    (h : (t, r) ∈ fileRecords roots M f tags) :
    ∃ te ∈ tags, processTag (computeRunName roots f.logDir) f.path M te.1 te.2 = some (t, r) :=
  List.mem_filterMap.mp h

/-! ## Claim theorems: series merger -/

/-- Claim C2: with a maximum-step bound `M`, every Series Record stored by
`load_tb_data` contains only steps `≤ M`; and a tag whose filtered
observation list is empty is skipped entirely — `processTag` appends
nothing for it (src/main.py lines 101–116). -/
theorem load_max_step_bound (files : List TBFile) (roots : List (List String)) (M : ℤ) :
    (∀ r ∈ allRecords (load_tb_data files roots (some M)).1, ∀ s ∈ r.steps, s ≤ M) ∧
    (∀ runName filePath tag (events : List Obs),
      events.filter (fun e => e.step ≤ M) = [] →
      processTag runName filePath (some M) tag events = none) := by
  constructor
  · intro r hr s hs
    rcases mem_allRecords_load_aux roots (some M) files ([], []) r hr with h | ⟨f, _, tags, _, t, htr⟩
    · simp [allRecords] at h
    · rcases mem_fileRecords roots (some M) f tags t r htr with ⟨te, _, hsome⟩
      rcases processTag_eq_some _ _ _ _ _ _ _ hsome with ⟨_, evs', _, hrec, hstep⟩
      subst hrec
      simp only [mkRecord, List.mem_map] at hs
      rcases hs with ⟨e, he, rfl⟩
      exact hstep M rfl e he
  · intro rn fp tag events hfil
    unfold processTag
    by_cases he : events.isEmpty
    · simp [he]
    · simp [he, hfil]

/-- Witness for `load_max_step_bound`: the Scenario-B file (steps
`[0,3,6,9]`, bound 5) yields a record whose step 3 obeys the bound, and a
tag whose only step is 9 is dropped by the filter. -/
theorem load_max_step_bound_witness :
    (3 : ℤ) ≤ 5 ∧ processTag "x" "y" (some 5) "t" [⟨9, 1, 1⟩] = none := by
  have h := load_max_step_bound
    [⟨"f1", ["a", "b"], .ok [("loss", [⟨0, 1, 10⟩, ⟨3, 2, 20⟩, ⟨6, 3, 30⟩, ⟨9, 4, 40⟩])]⟩]
    [["a"]] 5
  exact ⟨h.1 ⟨[0, 3], [1, 2], [10, 20], "b", "f1"⟩ (by decide) 3 (by decide),
    h.2 "x" "y" "t" [⟨9, 1, 1⟩] (by decide)⟩

/-- Claim C7: every Series Record stored by `load_tb_data` has steps,
values, and walltimes of equal length, and that length is at least one —
an empty record is never stored (src/main.py lines 92–116). -/
theorem load_record_invariant (files : List TBFile) (roots : List (List String))
    (M : Option ℤ) :
    ∀ r ∈ allRecords (load_tb_data files roots M).1,
      r.steps.length = r.values.length ∧ r.values.length = r.walltimes.length ∧
      0 < r.steps.length := by
  intro r hr
  rcases mem_allRecords_load_aux roots M files ([], []) r hr with h | ⟨f, _, tags, _, t, htr⟩
  · simp [allRecords] at h
  · rcases mem_fileRecords roots M f tags t r htr with ⟨te, _, hsome⟩
    rcases processTag_eq_some _ _ _ _ _ _ _ hsome with ⟨_, evs', hne, hrec, _⟩
    subst hrec
    simp [mkRecord, List.length_pos, hne]

/-- Witness for `load_record_invariant` on a one-file, one-tag input. -/
theorem load_record_invariant_witness :
    ([(0 : ℤ), 3] : List ℤ).length = ([(1 : ℚ), 2] : List ℚ).length ∧
    ([(1 : ℚ), 2] : List ℚ).length = ([(10 : ℚ), 20] : List ℚ).length ∧
    0 < ([(0 : ℤ), 3] : List ℤ).length := by
  have h := load_record_invariant
    [⟨"f2", ["a", "c"], .ok [("acc", [⟨0, 1, 10⟩, ⟨3, 2, 20⟩])]⟩] [["a"]] none
    ⟨[0, 3], [1, 2], [10, 20], "c", "f2"⟩ (by decide)
  exact h

lemma foldl_loadStep_fst (roots : List (List String)) (M : Option ℤ) :
    ∀ (files : List TBFile) (c : Coll) (log log' : List String),
      (files.foldl (loadStep roots M) (c, log)).1 =
        (files.foldl (loadStep roots M) (c, log')).1 := by
  intro files
  induction files with
  | nil => intro c log log'; rfl
  | cons f fs ih =>
    intro c log log'
    simp only [List.foldl_cons]
    cases hread : f.read with
    | error e => simp only [loadStep, hread]; exact ih c _ _
    | ok tags => simp only [loadStep, hread]; exact ih _ _ _

lemma mem_log_foldl (roots : List (List String)) (M : Option ℤ) :
    ∀ (files : List TBFile) (c : Coll) (log : List String) (x : String),
      x ∈ log → x ∈ (files.foldl (loadStep roots M) (c, log)).2 := by
  intro files
  induction files with
  | nil => intro c log x hx; exact hx
  | cons f fs ih =>
    intro c log x hx
    simp only [List.foldl_cons]
    cases hread : f.read with
    | error e =>
      simp only [loadStep, hread]
      exact ih c _ x (by simp [hx])
    | ok tags =>
      simp only [loadStep, hread]
      exact ih _ _ x (by simp [hx])

/-- Claim C5: an error while opening or reading one file is logged, that
file contributes nothing, records from every other file (earlier and later)
are exactly those obtained without the failing file, and the error does not
propagate — `load_tb_data` is a total function here (src/main.py
lines 84–120). -/
theorem load_error_isolation (pre post : List TBFile) (f : TBFile) (e : String)
    (roots : List (List String)) (M : Option ℤ) (hf : f.read = .error e) :
    (load_tb_data (pre ++ f :: post) roots M).1 = (load_tb_data (pre ++ post) roots M).1 ∧
    ("Failed to load file " ++ f.path ++ ": " ++ e) ∈
      (load_tb_data (pre ++ f :: post) roots M).2 := by
  unfold load_tb_data
  rw [List.foldl_append, List.foldl_append]
  cases hcl : pre.foldl (loadStep roots M) ([], []) with
  | mk c log =>
    simp only [List.foldl_cons, loadStep, hf]
    constructor
    · exact foldl_loadStep_fst roots M post c _ _
    · exact mem_log_foldl roots M post c _ _ (by simp)

/-- Witness for `load_error_isolation`: a single failing file leaves the
collection as if absent and logs the failure line. -/
theorem load_error_isolation_witness :
    (load_tb_data [⟨"bad", ["a"], .error "boom"⟩] [] none).1 =
      (load_tb_data [] [] none).1 ∧
    "Failed to load file bad: boom" ∈
      (load_tb_data [⟨"bad", ["a"], .error "boom"⟩] [] none).2 := by
  have h := load_error_isolation [] [] ⟨"bad", ["a"], .error "boom"⟩ "boom" [] none rfl
  exact h

/-! ## Run-identifier lemmas -/

lemma findSome_relParts_none (d : List String) (roots : List (List String))
    (h : ∀ b ∈ roots, d.take b.length ≠ b) :
    roots.findSome? (fun base => relParts d base) = none := by
  induction roots with
  | nil => rfl
  | cons b bs ih =>
    rw [List.findSome?_cons]
    have hb : relParts d b = none := by
      simp [relParts, h b (List.mem_cons_self b bs)]
    rw [hb]
    exact ih (fun b' hb' => h b' (List.mem_cons_of_mem b hb'))

lemma findSome_relParts_some (d : List String) :
    ∀ (roots : List (List String)) (i : ℕ), i < roots.length →
      d.take (roots.getD i []).length = roots.getD i [] →
      (∀ j, j < i → d.take (roots.getD j []).length ≠ roots.getD j []) →
      roots.findSome? (fun base => relParts d base) =
        some (d.drop (roots.getD i []).length) := by
  intro roots
  induction roots with
  | nil => intro i hi; simp at hi
  | cons b bs ih =>
    intro i hi htake hprev
    cases i with
    | zero =>
      simp only [List.getD_cons_zero] at htake ⊢
      rw [List.findSome?_cons]
      simp [relParts, htake]
    | succ j =>
      have h0 : d.take b.length ≠ b := by simpa using hprev 0 (Nat.succ_pos j)
      rw [List.findSome?_cons]
      have hb : relParts d b = none := by simp [relParts, h0]
      rw [hb]
      simp only [List.getD_cons_succ] at htake ⊢
      exact ih j (by simpa using hi) htake
        (fun j' hj' => by simpa using hprev (j' + 1) (by omega))

/-- Claim C3: the run identifier of a file equals its parent directory
relative to the first root (in supplied order) whose components are an
initial segment of it; when no root matches, it is the absolute parent
path; and it depends only on the parent directory, so two files with the
same parent get the same identifier (src/main.py lines 65–82). -/
theorem run_name_characterization (roots : List (List String)) (d : List String) :
    ((∀ b ∈ roots, d.take b.length ≠ b) → computeRunName roots d = strOfAbs d) ∧
    (∀ i, i < roots.length →
      d.take (roots.getD i []).length = roots.getD i [] →
      (∀ j, j < i → d.take (roots.getD j []).length ≠ roots.getD j []) →
      computeRunName roots d = strOfRel (d.drop (roots.getD i []).length)) ∧
    (∀ f1 f2 : TBFile, f1.logDir = f2.logDir →
      computeRunName roots f1.logDir = computeRunName roots f2.logDir) := by
  refine ⟨?_, ?_, ?_⟩
  · intro h
    unfold computeRunName
    rw [findSome_relParts_none d roots h]
  · intro i hi htake hprev
    unfold computeRunName
    rw [findSome_relParts_some d roots i hi htake hprev]
  · intro f1 f2 h
    rw [h]

/-- Witness for `run_name_characterization`: with roots `[/r1, /a]` the
parent `/a/b` matches the second root first, giving identifier `b`. -/
theorem run_name_characterization_witness :
    computeRunName [["r1"], ["a"]] ["a", "b"] = "b" := by
  have h := (run_name_characterization [["r1"], ["a"]] ["a", "b"]).2.1 1 (by decide)
    (by decide) (fun j hj => by
      have hj0 : j = 0 := by omega
      subst hj0
      decide)
  exact h.trans (by decide)

/-! ## Colour-assignment lemmas -/

lemma stateAfter_append (palette : List String) :
    ∀ (xs ys : List String) (st : ColorState),
      stateAfter palette st (xs ++ ys) = stateAfter palette (stateAfter palette st xs) ys := by
  intro xs
  induction xs with
  | nil => intro ys st; rfl
  | cons x xs ih =>
    intro ys st
    simp only [List.cons_append, stateAfter]
    exact ih ys _

lemma lookup_assignWithIdx (palette : List String) (r : String) :
    ∀ (l : List String) (i : ℕ),
      lookupRun (assignWithIdx palette i l) r =
        if r ∈ l then some (nextColor palette (i + posOf l r)) else none := by
  intro l
  induction l with
  | nil => intro i; simp [assignWithIdx, lookupRun]
  | cons x xs ih =>
    intro i
    by_cases hx : x = r
    · subst hx
      simp [assignWithIdx, lookupRun, posOf]
    · have hxr : ¬ (r = x) := fun h => hx h.symm
      simp only [assignWithIdx, lookupRun, if_neg hx, ih (i + 1), posOf, List.mem_cons]
      by_cases hm : r ∈ xs
      · have harith : i + 1 + posOf xs r = i + (posOf xs r + 1) := by omega
        simp [hm, hxr, harith]
      · simp [hm, hxr]

lemma assignWithIdx_snoc (palette : List String) (r : String) :
    ∀ (l : List String) (i : ℕ),
      assignWithIdx palette i (l ++ [r]) =
        assignWithIdx palette i l ++ [(r, nextColor palette (i + l.length))] := by
  intro l
  induction l with
  | nil => intro i; simp [assignWithIdx]
  | cons x xs ih =>
    intro i
    simp only [List.cons_append, assignWithIdx]
    rw [show (xs.append [r]) = xs ++ [r] from rfl, ih (i + 1), List.length_cons]
    have harith : i + 1 + xs.length = i + (xs.length + 1) := by omega
    rw [harith]

lemma mem_foldl_addRun : ∀ (l acc : List String) (x : String),
    x ∈ l.foldl addRun acc ↔ x ∈ acc ∨ x ∈ l := by
  intro l
  induction l with
  | nil => intro acc x; simp
  | cons r rs ih =>
    intro acc x
    rw [List.foldl_cons, ih (addRun acc r) x, List.mem_cons]
    unfold addRun
    by_cases hr : r ∈ acc
    · rw [if_pos hr]
      constructor
      · rintro (h | h)
        · exact Or.inl h
        · exact Or.inr (Or.inr h)
      · rintro (h | h | h)
        · exact Or.inl h
        · exact Or.inl (h ▸ hr)
        · exact Or.inr h
    · rw [if_neg hr]
      simp [List.mem_append, or_assoc]

lemma mem_seenAfter (l : List String) (x : String) : x ∈ seenAfter l ↔ x ∈ l := by
  simp [seenAfter, mem_foldl_addRun]

lemma seenAfter_snoc (l : List String) (r : String) :
    seenAfter (l ++ [r]) = addRun (seenAfter l) r := by
  simp [seenAfter, List.foldl_append]

lemma stateAfter_spec (palette : List String) (runs : List String) :
    stateAfter palette ⟨[], 0⟩ runs =
      ⟨assignWithIdx palette 0 (seenAfter runs), (seenAfter runs).length⟩ := by
  induction runs using List.reverseRecOn with
  | nil => rfl
  | append_singleton l r ih =>
    rw [stateAfter_append palette l [r], ih, seenAfter_snoc]
    by_cases hm : r ∈ seenAfter l
    · have hl : lookupRun (assignWithIdx palette 0 (seenAfter l)) r
          = some (nextColor palette (0 + posOf (seenAfter l) r)) := by
        rw [lookup_assignWithIdx]
        simp [hm]
      simp only [stateAfter, resolveColor, hl]
      simp [addRun, hm]
    · have hl : lookupRun (assignWithIdx palette 0 (seenAfter l)) r = none := by
        rw [lookup_assignWithIdx]
        simp [hm]
      simp only [stateAfter, resolveColor, hl]
      simp [addRun, hm, assignWithIdx_snoc]

lemma resolveAll_getD (palette : List String) :
    ∀ (runs : List String) (st : ColorState) (i : ℕ), i < runs.length →
      (resolveAll palette st runs).getD i "" =
        (resolveColor palette (stateAfter palette st (runs.take i)) (runs.getD i "")).1 := by
  intro runs
  induction runs with
  | nil => intro st i h; simp at h
  | cons r rs ih =>
    intro st i h
    cases i with
    | zero => simp [resolveAll, stateAfter]
    | succ j =>
      simp only [resolveAll, List.getD_cons_succ, List.take_succ_cons, stateAfter]
      exact ih _ j (by simpa using h)

lemma take_succ_getD (runs : List String) (i : ℕ) (h : i < runs.length) :
    runs.take (i + 1) = runs.take i ++ [runs.getD i ""] := by
  have h1 : runs[i]? = some runs[i] := List.getElem?_eq_getElem h
  rw [List.take_succ, h1]
  have h2 : runs.getD i "" = runs[i] := by
    simp [List.getD_eq_getElem?_getD, h1]
  rw [h2]
  rfl

lemma posOf_append_of_mem (r : String) :
    ∀ (l m : List String), r ∈ l → posOf (l ++ m) r = posOf l r := by
  intro l
  induction l with
  | nil => intro m hm; simp at hm
  | cons x xs ih =>
    intro m hm
    by_cases hx : x = r
    · simp [posOf, hx]
    · have hmem : r ∈ xs := by
        rcases List.mem_cons.mp hm with h | h
        · exact absurd h.symm hx
        · exact h
      simp [posOf, hx, ih m hmem]

lemma posOf_append_self (r : String) :
    ∀ (l : List String), r ∉ l → posOf (l ++ [r]) r = l.length := by
  intro l
  induction l with
  | nil => intro h; simp [posOf]
  | cons x xs ih =>
    intro h
    have hx : ¬ (x = r) := fun hxr => h (by simp [hxr.symm])
    have hxs : r ∉ xs := fun hmem => h (List.mem_cons_of_mem x hmem)
    simp [posOf, hx, ih hxs]

lemma foldl_addRun_extends : ∀ (m acc : List String), ∃ m', m.foldl addRun acc = acc ++ m' := by
  intro m
  induction m with
  | nil => intro acc; exact ⟨[], by simp⟩
  | cons r rs ih =>
    intro acc
    by_cases hr : r ∈ acc
    · rcases ih acc with ⟨m', hm'⟩
      refine ⟨m', ?_⟩
      simp only [List.foldl_cons, addRun, if_pos hr]
      exact hm'
    · rcases ih (acc ++ [r]) with ⟨m', hm'⟩
      refine ⟨r :: m', ?_⟩
      simp only [List.foldl_cons, addRun, if_neg hr]
      rw [hm']
      simp

lemma resolveAll_color_formula (palette : List String) (runs : List String) (i : ℕ)
    (h : i < runs.length) :
    (resolveAll palette ⟨[], 0⟩ runs).getD i "" =
      nextColor palette (posOf (seenAfter (runs.take (i + 1))) (runs.getD i "")) := by
  rw [resolveAll_getD palette runs _ i h, stateAfter_spec]
  rw [take_succ_getD runs i h, seenAfter_snoc]
  by_cases hm : runs.getD i "" ∈ seenAfter (runs.take i)
  · have hl : lookupRun (assignWithIdx palette 0 (seenAfter (runs.take i))) (runs.getD i "")
        = some (nextColor palette (0 + posOf (seenAfter (runs.take i)) (runs.getD i ""))) := by
      rw [lookup_assignWithIdx, if_pos hm]
    simp only [resolveColor, hl]
    unfold addRun
    rw [if_pos hm, Nat.zero_add]
  · have hl : lookupRun (assignWithIdx palette 0 (seenAfter (runs.take i))) (runs.getD i "")
        = none := by
      rw [lookup_assignWithIdx, if_neg hm]
    simp only [resolveColor, hl]
    unfold addRun
    rw [if_neg hm, posOf_append_self _ _ hm]

lemma resolveAll_same_color_le (palette : List String) (runs : List String) (i j : ℕ)
    (hij : i ≤ j) (hj : j < runs.length) (heq : runs.getD i "" = runs.getD j "") :
    (resolveAll palette ⟨[], 0⟩ runs).getD i "" =
      (resolveAll palette ⟨[], 0⟩ runs).getD j "" := by
  have hi : i < runs.length := by omega
  rw [resolveAll_color_formula palette runs i hi, resolveAll_color_formula palette runs j hj,
    ← heq]
  congr 1
  have hsub : runs.take (j + 1)
      = runs.take (i + 1) ++ (runs.take (j + 1)).drop (i + 1) := by
    conv_lhs => rw [← List.take_append_drop (i + 1) (runs.take (j + 1))]
    rw [List.take_take, min_eq_left (by omega)]
  have hmem : runs.getD i "" ∈ seenAfter (runs.take (i + 1)) := by
    rw [mem_seenAfter, take_succ_getD runs i hi]
    exact List.mem_append_right _ (by simp)
  rcases foldl_addRun_extends ((runs.take (j + 1)).drop (i + 1))
    (seenAfter (runs.take (i + 1))) with ⟨m', hm'⟩
  have hseen : seenAfter (runs.take (j + 1)) = seenAfter (runs.take (i + 1)) ++ m' := by
    calc seenAfter (runs.take (j + 1))
        = seenAfter (runs.take (i + 1) ++ (runs.take (j + 1)).drop (i + 1)) := by rw [← hsub]
      _ = ((runs.take (j + 1)).drop (i + 1)).foldl addRun (seenAfter (runs.take (i + 1))) := by
          rw [seenAfter, seenAfter, List.foldl_append]
      _ = seenAfter (runs.take (i + 1)) ++ m' := hm'
  rw [hseen, posOf_append_of_mem _ _ _ hmem]

/-! ## Claim theorems: colour assignment and drawing -/

/-- Claim C6: within one rendering pass the run-to-colour mapping is a
function — every draw of the same identifier resolves to the same colour,
and the first draw of a fresh identifier takes the next colour of the
cyclic palette (src/main.py lines 193–200 and 225–228). -/
theorem color_map_stable (palette : List String) (hp : palette ≠ []) (runs : List String) :
    (∀ i j, i < runs.length → j < runs.length → runs.getD i "" = runs.getD j "" →
      (resolveAll palette ⟨[], 0⟩ runs).getD i "" =
        (resolveAll palette ⟨[], 0⟩ runs).getD j "") ∧
    (∀ i, i < runs.length → runs.getD i "" ∉ runs.take i →
      (resolveAll palette ⟨[], 0⟩ runs).getD i "" =
        nextColor palette (seenAfter (runs.take i)).length) := by
  constructor
  · intro i j hi hj heq
    rcases le_total i j with h | h
    · exact resolveAll_same_color_le palette runs i j h hj heq
    · exact (resolveAll_same_color_le palette runs j i h hi heq.symm).symm
  · intro i hi hmem
    rw [resolveAll_color_formula palette runs i hi]
    congr 1
    have hm : runs.getD i "" ∉ seenAfter (runs.take i) := by
      rw [mem_seenAfter]
      exact hmem
    rw [take_succ_getD runs i hi, seenAfter_snoc]
    unfold addRun
    rw [if_neg hm, posOf_append_self _ _ hm]

/-- Witness for `color_map_stable` on the draw sequence `a, b, a` over the
fallback palette: the two draws of `a` share a colour, and `b`'s first draw
takes the second palette colour. -/
theorem color_map_stable_witness :
    (resolveAll fallbackColors ⟨[], 0⟩ ["a", "b", "a"]).getD 0 "" =
      (resolveAll fallbackColors ⟨[], 0⟩ ["a", "b", "a"]).getD 2 "" ∧
    (resolveAll fallbackColors ⟨[], 0⟩ ["a", "b", "a"]).getD 1 "" =
      nextColor fallbackColors (seenAfter (["a", "b", "a"].take 1)).length := by
  have h := color_map_stable fallbackColors (by decide) ["a", "b", "a"]
  exact ⟨h.1 0 2 (by decide) (by decide) rfl, h.2 1 (by decide) (by decide)⟩

/-- Claim C9: with smoothing and show-both, exactly two curves are drawn
per record: the raw one first (label `"_nolegend_"`, semi-transparent,
thinner), then the smoothed one (labelled with the run identifier, same
colour); only the smoothed curve appears in the legend
(src/main.py lines 230–248). -/
theorem show_both_draws (m : String) (w : ℤ) (x_axis : String) (color : String)
    (r : Record) (hr : r.run_name ≠ "_nolegend_") :
    (drawRecord (some m) w true x_axis color r).length = 2 ∧
    ((drawRecord (some m) w true x_axis color r).getD 0 defCurve).y = r.values ∧
    ((drawRecord (some m) w true x_axis color r).getD 0 defCurve).label = "_nolegend_" ∧
    ((drawRecord (some m) w true x_axis color r).getD 1 defCurve).y =
      smooth_values r.values m (some w) ∧
    ((drawRecord (some m) w true x_axis color r).getD 1 defCurve).label = r.run_name ∧
    ((drawRecord (some m) w true x_axis color r).getD 1 defCurve).color =
      ((drawRecord (some m) w true x_axis color r).getD 0 defCurve).color ∧
    ((drawRecord (some m) w true x_axis color r).getD 0 defCurve).alpha < 1 ∧
    ((drawRecord (some m) w true x_axis color r).getD 0 defCurve).linewidth <
      ((drawRecord (some m) w true x_axis color r).getD 1 defCurve).linewidth ∧
    legendLabels (drawRecord (some m) w true x_axis color r) = [r.run_name] := by
  refine ⟨rfl, rfl, rfl, rfl, rfl, rfl, by norm_num [drawRecord],
    by norm_num [drawRecord], ?_⟩
  simp [drawRecord, legendLabels, hr]

/-- Witness for `show_both_draws` on a concrete record. -/
theorem show_both_draws_witness :
    (drawRecord (some "ema") 10 true "step" "#1f77b4"
      ⟨[0, 1], [1, 2], [5, 6], "run1", "f"⟩).length = 2 ∧
    legendLabels (drawRecord (some "ema") 10 true "step" "#1f77b4"
      ⟨[0, 1], [1, 2], [5, 6], "run1", "f"⟩) = ["run1"] := by
  have h := show_both_draws "ema" 10 "step" "#1f77b4"
    ⟨[0, 1], [1, 2], [5, 6], "run1", "f"⟩ (by decide)
  exact ⟨h.1, h.2.2.2.2.2.2.2.2⟩

/-! ## Model validation on the spec's concrete scenarios -/
example : TBViz.npConvolveSame [1,2,3] [0,1,1/2] = [1, 5/2, 4] := by
  norm_num [TBViz.npConvolveSame, TBViz.npConvolveFull, List.range_succ, List.getD]
example : (TBViz.smooth_values [1] "ma" (some 2)).length = 2 := by decide
example : TBViz.smooth_values [1,2,3,4,5] "ma" (some 3) = [1,2,3,4,3] := by
  norm_num [TBViz.smooth_values, TBViz.npConvolveSame, TBViz.npConvolveFull, List.range_succ,
    List.getD, List.replicate]
example : TBViz.smooth_values [1,2] "ema" (some 3) = [1, 3/2] := by
  norm_num [TBViz.smooth_values, TBViz.emaSmooth, TBViz.emaFrom]
  intro h
  simp at h
example : TBViz.smooth_values [1,2] "bogus" (some 3) = [1, 3/2] := by
  norm_num [TBViz.smooth_values, TBViz.emaSmooth, TBViz.emaFrom]
  intro h
  simp at h
example : TBViz.smooth_values [1,2] "ma" (some 1) = [1,2] := by decide
example : TBViz.smooth_values [1,2] "ma" none = [1,2] := by decide
example :
    (TBViz.load_tb_data
      [⟨"f1", ["a","b"], .ok [("loss", [⟨0,1,10⟩, ⟨3,2,20⟩, ⟨6,3,30⟩, ⟨9,4,40⟩])]⟩]
      [["a"]] (some 5)).1
    = [("loss", [⟨[0,3],[1,2],[10,20],"b","f1"⟩])] := by decide
example :
    TBViz.load_tb_data [⟨"f1", ["a"], .error "boom"⟩] [] none
    = ([], ["Loading: f1", "Failed to load file f1: boom"]) := by decide
example : TBViz.computeRunName [["r1"],["a"]] ["a","b"] = "b" := by decide
example : TBViz.computeRunName [["a"]] ["a"] = "." := by decide
example : TBViz.computeRunName [["r1"]] ["a","b"] = "/a/b" := by decide
example :
    TBViz.resolveAll TBViz.fallbackColors ⟨[],0⟩ ["a","b","a","c","b"]
    = ["#1f77b4", "#ff7f0e", "#1f77b4", "#2ca02c", "#ff7f0e"] := by decide

end TBViz
